import Mathlib

/-!
Verification of the pdf-finder pipeline (src/run.py).

The script scans directories for files whose name ends in "pdf", feeds each
through a qpdf subprocess, classifies the decompressed bytes with a fixed set
of byte and regex predicates, memoizes the per-document record in a sidecar
JSON file, and aggregates membership lists and frequency counters.

Byte strings are modelled as List Nat (one entry per byte).  Each regex of
run.py is a fixed concatenation of case-insensitive literals and character
classes whose greedy matching is deterministic (every character class excludes
the byte that follows it in the pattern), so each regex is embedded as a
deterministic matcher, and findall as a left-to-right non-overlapping scan.
-/

/-- ASCII lowercasing of a single byte, the case folding that Python applies
to bytes patterns compiled with re.IGNORECASE. -/
def lowerB (b : Nat) : Nat := if 65 ≤ b ∧ b ≤ 90 then b + 32 else b

/-- The character class [\r\n \t] used by the whitespace gaps in the regexes of run.py (bytes 13, 10, 32, 9). -/
def isSpaceB (b : Nat) : Bool := b == 13 || b == 10 || b == 32 || b == 9

/-- A word byte for the Python bytes-level \w: [a-zA-Z0-9_]. -/
def isWordB (b : Nat) : Bool :=
  (65 ≤ b && b ≤ 90) || (97 ≤ b && b ≤ 122) || (48 ≤ b && b ≤ 57) || b == 95

/-- The character class [\w/+] of the capturing group of image_regex. -/
def isImgB (b : Nat) : Bool := isWordB b || b == 47 || b == 43

/-- Bytes of an ASCII string literal. -/
def strToB (s : String) : List Nat := s.data.map Char.toNat

/-- Does the byte list start with the given pattern (exact bytes)? -/
def listStartsWith : List Nat → List Nat → Bool
  | [], _ => true
  | _ :: _, [] => false
  | x :: ps, b :: bs => x == b && listStartsWith ps bs

/-- The Python case-sensitive substring test pat in content for bytes. -/
def bytesContains (pat : List Nat) : List Nat → Bool
  | [] => listStartsWith pat []
  | b :: bs => listStartsWith pat (b :: bs) || bytesContains pat bs

/-- Consume a case-insensitive literal; returns the remaining bytes. -/
def pLitCI : List Nat → List Nat → Option (List Nat)
  | [], l => some l
  | _ :: _, [] => none
  | x :: ps, b :: bs => if lowerB b = lowerB x then pLitCI ps bs else none

/-- Greedy match of class* : drop the longest run of class bytes. -/
def pStar (pred : Nat → Bool) (l : List Nat) : List Nat := l.dropWhile pred

/-- Greedy match of class+ without keeping the capture. -/
def pPlusU (pred : Nat → Bool) : List Nat → Option (List Nat)
  | [] => none
  | b :: bs => if pred b then some (bs.dropWhile pred) else none

/-- Greedy match of a capturing class+ : returns (capture, rest). -/
def pPlusC (pred : Nat → Bool) : List Nat → Option (List Nat × List Nat)
  | [] => none
  | b :: bs => if pred b then some (b :: bs.takeWhile pred, bs.dropWhile pred) else none

theorem pLitCI_len : ∀ pat l r, pLitCI pat l = some r → r.length + pat.length = l.length := by
  intro pat
  induction pat with
  | nil => intro l r h; cases h; simp
  | cons x ps ih =>
    intro l r h
    cases l with
    | nil => simp [pLitCI] at h
    | cons b bs =>
      simp only [pLitCI] at h
      split at h
      · have := ih bs r h
        simp [List.length_cons]
        omega
      · cases h

theorem pLitCI_le (pat l r : List Nat) (h : pLitCI pat l = some r) : r.length ≤ l.length := by
  have := pLitCI_len pat l r h
  omega

theorem pLitCI_lt (pat l r : List Nat) (hp : pat ≠ []) (h : pLitCI pat l = some r) :
    r.length < l.length := by
  have hlen := pLitCI_len pat l r h
  cases pat with
  | nil => exact absurd rfl hp
  | cons a as => simp [List.length_cons] at hlen; omega

theorem dropWhileB_le (pred : Nat → Bool) (l : List Nat) :
    (l.dropWhile pred).length ≤ l.length := by
  induction l with
  | nil => simp
  | cons b bs ih =>
    simp only [List.dropWhile]
    split
    · exact Nat.le_trans ih (by simp)
    · simp

theorem pStar_le (pred : Nat → Bool) (l : List Nat) : (pStar pred l).length ≤ l.length := by
  simpa [pStar] using dropWhileB_le pred l

theorem pPlusU_lt (pred : Nat → Bool) (l r : List Nat) (h : pPlusU pred l = some r) :
    r.length < l.length := by
  cases l with
  | nil => simp [pPlusU] at h
  | cons b bs =>
    simp only [pPlusU] at h
    split at h
    · cases h
      have := dropWhileB_le pred bs
      simp [List.length_cons]
      omega
    · cases h

theorem pPlusC_lt (pred : Nat → Bool) (l : List Nat) (c r : List Nat)
    (h : pPlusC pred l = some (c, r)) : r.length < l.length := by
  cases l with
  | nil => simp [pPlusC] at h
  | cons b bs =>
    simp only [pPlusC] at h
    split at h
    · cases h
      have := dropWhileB_le pred bs
      simp [List.length_cons]
      omega
    · cases h

theorem pPlusC_mem (pred : Nat → Bool) (l : List Nat) (c r : List Nat)
    (h : pPlusC pred l = some (c, r)) : ∀ b ∈ c, pred b = true := by
  cases l with
  | nil => simp [pPlusC] at h
  | cons b bs =>
    simp only [pPlusC] at h
    split at h
    · cases h
      intro x hx
      rcases List.mem_cons.mp hx with h1 | h1
      · subst h1; assumption
      · exact List.mem_takeWhile_imp h1
    · cases h

/-- Matcher for xfa_regex (run.py line 18): a literal < , optional whitespace,
the word template, at least one whitespace byte, then the xfa-template
namespace literal, all case-insensitive. -/
def xfaM (l : List Nat) : Option Unit :=
  (pLitCI (strToB "<") l).bind fun l1 =>
  (pLitCI (strToB "template") (pStar isSpaceB l1)).bind fun l2 =>
  (pPlusU isSpaceB l2).bind fun l3 =>
  (pLitCI (strToB "xmlns=\"http://www.xfa.org/schema/xfa-template/") l3).map fun _ => ()

/-- Matcher for image_regex (run.py line 23) with its capturing group
of class [\w/+]. -/
def imageM (l : List Nat) : Option (List Nat × List Nat) :=
  (pLitCI (strToB "<") l).bind fun l1 =>
  (pLitCI (strToB "image") (pStar isSpaceB l1)).bind fun l2 =>
  (pLitCI (strToB "contentType=\"") (pStar isSpaceB l2)).bind fun l3 =>
  (pPlusC isImgB l3).bind fun cr =>
  (pLitCI (strToB "\"") cr.2).map fun l4 => (cr.1, l4)

/-- Matcher for used_font_regex (run.py line 28): typeface=" then a capture
of bytes other than the double quote, then the closing quote. -/
def usedFontM (l : List Nat) : Option (List Nat × List Nat) :=
  (pLitCI (strToB "typeface=\"") l).bind fun l1 =>
  (pPlusC (fun b => !(b == 34)) l1).bind fun cr =>
  (pLitCI (strToB "\"") cr.2).map fun l2 => (cr.1, l2)

/-- Matcher for embedded_font_regex (run.py line 33): the literal
/FontFamily ( then a capture of bytes other than ) then the closing paren. -/
def embeddedFontM (l : List Nat) : Option (List Nat × List Nat) :=
  (pLitCI (strToB "/FontFamily (") l).bind fun l1 =>
  (pPlusC (fun b => !(b == 41)) l1).bind fun cr =>
  (pLitCI (strToB ")") cr.2).map fun l2 => (cr.1, l2)

/-- Matcher for rectangle_regex (run.py line 38). -/
def rectangleM (l : List Nat) : Option Unit :=
  (pLitCI (strToB "<") l).bind fun l1 =>
  (pLitCI (strToB "rectangle") (pStar isSpaceB l1)).map fun _ => ()

/-- Matcher for purexfa_regex (run.py line 43): a dynamicRender element whose
body is the word required, with optional [\n\r \t] runs between every token. -/
def purexfaM (l : List Nat) : Option Unit :=
  (pLitCI (strToB "<") l).bind fun l1 =>
  (pLitCI (strToB "dynamicRender") (pStar isSpaceB l1)).bind fun l2 =>
  (pLitCI (strToB ">") (pStar isSpaceB l2)).bind fun l3 =>
  (pLitCI (strToB "required") (pStar isSpaceB l3)).bind fun l4 =>
  (pLitCI (strToB "<") (pStar isSpaceB l4)).bind fun l5 =>
  (pLitCI (strToB "/") (pStar isSpaceB l5)).bind fun l6 =>
  (pLitCI (strToB "dynamicRender") (pStar isSpaceB l6)).bind fun l7 =>
  (pLitCI (strToB ">") (pStar isSpaceB l7)).map fun _ => ()

/-- Matcher for xfa_host_regex (run.py line 48): the literal xfa.host. then a
capture of word bytes (the class [^\W] of the source). -/
def xfaHostM (l : List Nat) : Option (List Nat × List Nat) :=
  (pLitCI (strToB "xfa.host.") l).bind fun l1 =>
  pPlusC isWordB l1

/-- Matcher for exec_menu_item_regex (run.py line 53): app.execMenuItem( then
a capture of bytes other than ) then the closing paren. -/
def execMenuM (l : List Nat) : Option (List Nat × List Nat) :=
  (pLitCI (strToB "app.execMenuItem(") l).bind fun l1 =>
  (pPlusC (fun b => !(b == 41)) l1).bind fun cr =>
  (pLitCI (strToB ")") cr.2).map fun l2 => (cr.1, l2)

theorem imageM_lt (l c r : List Nat) (h : imageM l = some (c, r)) : r.length < l.length := by
  unfold imageM at h
  cases h1 : pLitCI (strToB "<") l with
  | none => rw [h1] at h; cases h
  | some l1 =>
  rw [h1] at h; simp only [Option.some_bind] at h
  cases h2 : pLitCI (strToB "image") (pStar isSpaceB l1) with
  | none => rw [h2] at h; cases h
  | some l2 =>
  rw [h2] at h; simp only [Option.some_bind] at h
  cases h3 : pLitCI (strToB "contentType=\"") (pStar isSpaceB l2) with
  | none => rw [h3] at h; cases h
  | some l3 =>
  rw [h3] at h; simp only [Option.some_bind] at h
  cases h4 : pPlusC isImgB l3 with
  | none => rw [h4] at h; cases h
  | some cr =>
  rw [h4] at h; simp only [Option.some_bind] at h
  cases h5 : pLitCI (strToB "\"") cr.2 with
  | none => rw [h5] at h; cases h
  | some l4 =>
  rw [h5] at h; simp only [Option.map_some'] at h
  cases h
  have e1 := pLitCI_lt _ _ _ (by decide) h1
  have e2 := pStar_le isSpaceB l1
  have e3 := pLitCI_le _ _ _ h2
  have e4 := pStar_le isSpaceB l2
  have e5 := pLitCI_le _ _ _ h3
  have e6 := pPlusC_lt _ _ _ _ (by rw [h4])
  have e7 := pLitCI_le _ _ _ h5
  omega

theorem imageM_capture (l c r : List Nat) (h : imageM l = some (c, r)) :
    ∀ b ∈ c, isImgB b = true := by
  unfold imageM at h
  cases h1 : pLitCI (strToB "<") l with
  | none => rw [h1] at h; cases h
  | some l1 =>
  rw [h1] at h; simp only [Option.some_bind] at h
  cases h2 : pLitCI (strToB "image") (pStar isSpaceB l1) with
  | none => rw [h2] at h; cases h
  | some l2 =>
  rw [h2] at h; simp only [Option.some_bind] at h
  cases h3 : pLitCI (strToB "contentType=\"") (pStar isSpaceB l2) with
  | none => rw [h3] at h; cases h
  | some l3 =>
  rw [h3] at h; simp only [Option.some_bind] at h
  cases h4 : pPlusC isImgB l3 with
  | none => rw [h4] at h; cases h
  | some cr =>
  rw [h4] at h; simp only [Option.some_bind] at h
  cases h5 : pLitCI (strToB "\"") cr.2 with
  | none => rw [h5] at h; cases h
  | some l4 =>
  rw [h5] at h; simp only [Option.map_some'] at h
  cases h
  exact pPlusC_mem _ _ _ _ (by rw [h4])

theorem usedFontM_lt (l c r : List Nat) (h : usedFontM l = some (c, r)) :
    r.length < l.length := by
  unfold usedFontM at h
  cases h1 : pLitCI (strToB "typeface=\"") l with
  | none => rw [h1] at h; cases h
  | some l1 =>
  rw [h1] at h; simp only [Option.some_bind] at h
  cases h2 : pPlusC (fun b => !(b == 34)) l1 with
  | none => rw [h2] at h; cases h
  | some cr =>
  rw [h2] at h; simp only [Option.some_bind] at h
  cases h3 : pLitCI (strToB "\"") cr.2 with
  | none => rw [h3] at h; cases h
  | some l2 =>
  rw [h3] at h; simp only [Option.map_some'] at h
  cases h
  have e1 := pLitCI_lt _ _ _ (by decide) h1
  have e2 := pPlusC_lt _ _ _ _ (by rw [h2])
  have e3 := pLitCI_le _ _ _ h3
  omega

theorem embeddedFontM_lt (l c r : List Nat) (h : embeddedFontM l = some (c, r)) :
    r.length < l.length := by
  unfold embeddedFontM at h
  cases h1 : pLitCI (strToB "/FontFamily (") l with
  | none => rw [h1] at h; cases h
  | some l1 =>
  rw [h1] at h; simp only [Option.some_bind] at h
  cases h2 : pPlusC (fun b => !(b == 41)) l1 with
  | none => rw [h2] at h; cases h
  | some cr =>
  rw [h2] at h; simp only [Option.some_bind] at h
  cases h3 : pLitCI (strToB ")") cr.2 with
  | none => rw [h3] at h; cases h
  | some l2 =>
  rw [h3] at h; simp only [Option.map_some'] at h
  cases h
  have e1 := pLitCI_lt _ _ _ (by decide) h1
  have e2 := pPlusC_lt _ _ _ _ (by rw [h2])
  have e3 := pLitCI_le _ _ _ h3
  omega

theorem xfaHostM_lt (l c r : List Nat) (h : xfaHostM l = some (c, r)) :
    r.length < l.length := by
  unfold xfaHostM at h
  cases h1 : pLitCI (strToB "xfa.host.") l with
  | none => rw [h1] at h; cases h
  | some l1 =>
  rw [h1] at h; simp only [Option.some_bind] at h
  have e1 := pLitCI_lt _ _ _ (by decide) h1
  have e2 := pPlusC_lt _ _ _ _ h
  omega

theorem xfaHostM_capture (l c r : List Nat) (h : xfaHostM l = some (c, r)) :
    ∀ b ∈ c, isWordB b = true := by
  unfold xfaHostM at h
  cases h1 : pLitCI (strToB "xfa.host.") l with
  | none => rw [h1] at h; cases h
  | some l1 =>
  rw [h1] at h; simp only [Option.some_bind] at h
  exact pPlusC_mem _ _ _ _ h

theorem execMenuM_lt (l c r : List Nat) (h : execMenuM l = some (c, r)) :
    r.length < l.length := by
  unfold execMenuM at h
  cases h1 : pLitCI (strToB "app.execMenuItem(") l with
  | none => rw [h1] at h; cases h
  | some l1 =>
  rw [h1] at h; simp only [Option.some_bind] at h
  cases h2 : pPlusC (fun b => !(b == 41)) l1 with
  | none => rw [h2] at h; cases h
  | some cr =>
  rw [h2] at h; simp only [Option.some_bind] at h
  cases h3 : pLitCI (strToB ")") cr.2 with
  | none => rw [h3] at h; cases h
  | some l2 =>
  rw [h3] at h; simp only [Option.map_some'] at h
  cases h
  have e1 := pLitCI_lt _ _ _ (by decide) h1
  have e2 := pPlusC_lt _ _ _ _ (by rw [h2])
  have e3 := pLitCI_le _ _ _ h3
  omega

/-- Python re.search as a boolean: try the matcher at every position. -/
def searchSomeWith {α : Type} (m : List Nat → Option α) : List Nat → Bool
  | [] => (m []).isSome
  | b :: bs => (m (b :: bs)).isSome || searchSomeWith m bs

/-- Fuel-bounded left-to-right scan: on a match emit the capture and continue
after the end of the match (non-overlapping), otherwise advance one byte.
The fuel only serves to make the recursion structural; findAllFuel_stable
below shows any fuel of at least the input length gives the same result. -/
def findAllFuel (m : List Nat → Option (List Nat × List Nat)) :
    Nat → List Nat → List (List Nat)
  | 0, _ => []
  | _ + 1, [] => []
  | fuel + 1, b :: bs =>
    match m (b :: bs) with
    | some (c, r) => c :: findAllFuel m fuel r
    | none => findAllFuel m fuel bs

/-- Python re.findall for a capturing matcher, for matchers that always
consume at least one byte. -/
def findAllWith (m : List Nat → Option (List Nat × List Nat))
    (_ : ∀ l c r, m l = some (c, r) → r.length < l.length)
    (l : List Nat) : List (List Nat) :=
  findAllFuel m l.length l

theorem findAllFuel_nil (m : List Nat → Option (List Nat × List Nat)) (fuel : Nat) :
    findAllFuel m fuel [] = [] := by
  cases fuel <;> rfl

theorem findAllFuel_stable (m : List Nat → Option (List Nat × List Nat))
    (hm : ∀ l c r, m l = some (c, r) → r.length < l.length) :
    ∀ (f1 f2 : Nat) (l : List Nat), l.length ≤ f1 → l.length ≤ f2 →
      findAllFuel m f1 l = findAllFuel m f2 l := by
  intro f1
  induction f1 with
  | zero =>
    intro f2 l hl1 hl2
    have : l = [] := List.length_eq_zero.mp (Nat.le_zero.mp hl1)
    subst this
    rw [findAllFuel_nil, findAllFuel_nil]
  | succ f1 ih =>
    intro f2 l hl1 hl2
    cases l with
    | nil => rw [findAllFuel_nil, findAllFuel_nil]
    | cons b bs =>
      cases f2 with
      | zero => simp at hl2
      | succ f2 =>
        simp only [findAllFuel]
        cases hmb : m (b :: bs) with
        | some cr =>
          obtain ⟨c, r⟩ := cr
          have hr := hm _ _ _ hmb
          simp only [List.length_cons] at hl1 hl2 hr
          show c :: findAllFuel m f1 r = c :: findAllFuel m f2 r
          rw [ih f2 r (by omega) (by omega)]
        | none =>
          simp only [List.length_cons] at hl1 hl2
          show findAllFuel m f1 bs = findAllFuel m f2 bs
          exact ih f2 bs (by omega) (by omega)

theorem findAllWith_cons (m : List Nat → Option (List Nat × List Nat))
    (hm : ∀ l c r, m l = some (c, r) → r.length < l.length) (b : Nat) (bs : List Nat) :
    findAllWith m hm (b :: bs) =
      match m (b :: bs) with
      | some (c, r) => c :: findAllWith m hm r
      | none => findAllWith m hm bs := by
  unfold findAllWith
  simp only [List.length_cons, findAllFuel]
  cases hmb : m (b :: bs) with
  | some cr =>
    obtain ⟨c, r⟩ := cr
    have hr := hm _ _ _ hmb
    simp only [List.length_cons] at hr
    show c :: findAllFuel m bs.length r = c :: findAllFuel m r.length r
    rw [findAllFuel_stable m hm bs.length r.length r (by omega) (by omega)]
  | none => rfl

theorem mem_findAllFuel (m : List Nat → Option (List Nat × List Nat)) :
    ∀ (fuel : Nat) (l : List Nat) (cap : List Nat), cap ∈ findAllFuel m fuel l →
      ∃ u r, m u = some (cap, r) := by
  intro fuel
  induction fuel with
  | zero => intro l cap hc; simp [findAllFuel] at hc
  | succ f ih =>
    intro l cap hc
    cases l with
    | nil => simp [findAllFuel] at hc
    | cons b bs =>
      simp only [findAllFuel] at hc
      cases hmb : m (b :: bs) with
      | some cr =>
        obtain ⟨c, r⟩ := cr
        rw [hmb] at hc
        rcases List.mem_cons.mp hc with h1 | h1
        · subst h1; exact ⟨b :: bs, r, hmb⟩
        · exact ih r cap h1
      | none =>
        rw [hmb] at hc
        exact ih bs cap hc

theorem mem_findAllWith (m : List Nat → Option (List Nat × List Nat))
    (hm : ∀ l c r, m l = some (c, r) → r.length < l.length)
    (l cap : List Nat) (h : cap ∈ findAllWith m hm l) : ∃ u r, m u = some (cap, r) :=
  mem_findAllFuel m l.length l cap h

/-- run.py line 59: is_XFA searches for xfa_regex. -/
def is_XFA (content : List Nat) : Bool := searchSomeWith xfaM content

/-- The fixed clue list of run.py line 64 (case-sensitive byte substrings). -/
def jsClues : List (List Nat) :=
  [strToB "AFNumber_", strToB "AFSimple_", strToB "AFPercent_",
   strToB "AFSpecial_", strToB "AFDate_", strToB "/JavaScript"]

/-- run.py line 63: is_JS is true when any clue occurs in the content. -/
def is_JS (content : List Nat) : Bool := jsClues.any fun clue => bytesContains clue content

/-- run.py line 75: both /MarkInfo and /Marked true must occur. -/
def is_tagged (content : List Nat) : Bool :=
  bytesContains (strToB "/MarkInfo") content && bytesContains (strToB "/Marked true") content

/-- run.py line 79. -/
def is_using_rectangles (content : List Nat) : Bool := searchSomeWith rectangleM content

/-- run.py line 83: the literal /Encrypt followed by a space. -/
def is_encrypted (content : List Nat) : Bool := bytesContains (strToB "/Encrypt ") content

/-- run.py line 87. -/
def is_purexfa (content : List Nat) : Bool := searchSomeWith purexfaM content

/-- Python bytes.decode ascii in strict mode: fails when any byte is 128 or
more, and otherwise returns the characters of the bytes unchanged (modelled
as the same byte list). -/
def decodeAscii (l : List Nat) : Option (List Nat) :=
  if ∀ b ∈ l, b < 128 then some l else none

/-- Python bytes.decode ascii with errors=ignore: undecodable bytes are
dropped. -/
def decodeAsciiIgnore (l : List Nat) : List Nat := l.filter fun b => b < 128

/-- image_regex.findall. -/
def imageCaptures (content : List Nat) : List (List Nat) :=
  findAllWith imageM imageM_lt content

/-- used_font_regex.findall. -/
def usedFontCaptures (content : List Nat) : List (List Nat) :=
  findAllWith usedFontM usedFontM_lt content

/-- embedded_font_regex.findall. -/
def embeddedFontCaptures (content : List Nat) : List (List Nat) :=
  findAllWith embeddedFontM embeddedFontM_lt content

/-- xfa_host_regex.findall. -/
def xfaHostCaptures (content : List Nat) : List (List Nat) :=
  findAllWith xfaHostM xfaHostM_lt content

/-- exec_menu_item_regex.findall. -/
def execMenuCaptures (content : List Nat) : List (List Nat) :=
  findAllWith execMenuM execMenuM_lt content

/-- run.py lines 155-158: the set of strictly ascii-decoded image content
types; none when a decode raises UnicodeDecodeError. -/
def imageTypesOf (content : List Nat) : Option (Finset (List Nat)) :=
  ((imageCaptures content).mapM decodeAscii).map List.toFinset

/-- run.py lines 160-163: used fonts are decoded with errors=ignore, so this
extraction never fails. -/
def usedFontsOf (content : List Nat) : Finset (List Nat) :=
  ((usedFontCaptures content).map decodeAsciiIgnore).toFinset

/-- run.py lines 164-167: embedded fonts are decoded strictly. -/
def embeddedFontsOf (content : List Nat) : Option (Finset (List Nat)) :=
  ((embeddedFontCaptures content).mapM decodeAscii).map List.toFinset

/-- run.py lines 170-172: xfa.host function names, decoded strictly. -/
def xfaHostFuncsOf (content : List Nat) : Option (Finset (List Nat)) :=
  ((xfaHostCaptures content).mapM decodeAscii).map List.toFinset

/-- run.py lines 175-178: app.execMenuItem arguments, decoded strictly. -/
def execMenuArgsOf (content : List Nat) : Option (Finset (List Nat)) :=
  ((execMenuCaptures content).mapM decodeAscii).map List.toFinset

/-- The per-document record: the types dict built by analyze (run.py lines
115-127), with the 0/1 ints modelled as Bool and the token lists as finite
sets (they are produced from Python sets, so they carry no duplicates and no
order). -/
structure Types where
  x : Bool
  j : Bool
  s : Bool
  t : Bool
  r : Bool
  i : Finset (List Nat)
  f : Finset (List Nat)
  e : Bool
  p : Bool
  xh : Finset (List Nat)
  mi : Finset (List Nat)
deriving DecidableEq

/-- The Python exceptions that the modelled fragment can raise. -/
inductive PyErr where
  | jsonDecodeError : PyErr
  | unicodeDecodeError : PyErr
deriving DecidableEq

/-- The classification step of analyze, run.py lines 155-192: every flag and
extracted set computed from one byte string.  The e field is not touched by
these lines (it is set from the original file bytes at lines 132-133) and is
left false here.  A strict ascii decode of a capture containing a byte of 128
or more raises UnicodeDecodeError, modelled as the error outcome. -/
def classify (content : List Nat) : Except PyErr Types :=
  match imageTypesOf content with
  | none => Except.error PyErr.unicodeDecodeError
  | some its =>
    match embeddedFontsOf content with
    | none => Except.error PyErr.unicodeDecodeError
    | some efs =>
      match xfaHostFuncsOf content with
      | none => Except.error PyErr.unicodeDecodeError
      | some xhs =>
        match execMenuArgsOf content with
        | none => Except.error PyErr.unicodeDecodeError
        | some mis =>
          Except.ok
            { x := is_XFA content
              j := is_JS content
              s := is_JS content && bytesContains (strToB "toSource") content
              t := is_tagged content
              r := is_using_rectangles content
              i := its
              f := usedFontsOf content \ efs
              e := false
              p := is_purexfa content
              xh := xhs
              mi := mis }

theorem classify_ok_fields (content : List Nat) (rec : Types)
    (h : classify content = Except.ok rec) :
    rec.x = is_XFA content ∧ rec.j = is_JS content ∧
    rec.s = (is_JS content && bytesContains (strToB "toSource") content) ∧
    rec.t = is_tagged content ∧ rec.r = is_using_rectangles content ∧
    rec.e = false ∧ rec.p = is_purexfa content ∧
    imageTypesOf content = some rec.i ∧
    (∃ efs, embeddedFontsOf content = some efs ∧ rec.f = usedFontsOf content \ efs) ∧
    xfaHostFuncsOf content = some rec.xh ∧ execMenuArgsOf content = some rec.mi := by
  unfold classify at h
  cases h1 : imageTypesOf content with
  | none => rw [h1] at h; cases h
  | some its =>
  rw [h1] at h
  cases h2 : embeddedFontsOf content with
  | none => rw [h2] at h; cases h
  | some efs =>
  rw [h2] at h
  cases h3 : xfaHostFuncsOf content with
  | none => rw [h3] at h; cases h
  | some xhs =>
  rw [h3] at h
  cases h4 : execMenuArgsOf content with
  | none => rw [h4] at h; cases h
  | some mis =>
  rw [h4] at h
  cases h
  exact ⟨rfl, rfl, rfl, rfl, rfl, rfl, rfl, rfl, ⟨efs, rfl, rfl⟩, rfl, rfl⟩

theorem isImgB_lt (b : Nat) (h : isImgB b = true) : b < 128 := by
  simp [isImgB, isWordB] at h
  rcases h with ((h | h | h) | h) | h | h <;> omega

theorem isWordB_lt (b : Nat) (h : isWordB b = true) : b < 128 := by
  simp [isWordB] at h
  rcases h with h | h | h | h <;> omega

theorem mapM_decodeAscii_some (caps : List (List Nat))
    (h : ∀ cap ∈ caps, ∀ b ∈ cap, b < 128) :
    ∃ ds, caps.mapM decodeAscii = some ds := by
  induction caps with
  | nil => exact ⟨[], rfl⟩
  | cons c cs ih =>
    obtain ⟨ds, hds⟩ := ih fun cap hc => h cap (List.mem_cons_of_mem c hc)
    refine ⟨c :: ds, ?_⟩
    have hc : decodeAscii c = some c := by
      unfold decodeAscii
      rw [if_pos (h c (List.mem_cons_self c cs))]
    rw [List.mapM_cons, hc, hds]
    rfl

theorem imageTypesOf_some (content : List Nat) : ∃ s, imageTypesOf content = some s := by
  have hascii : ∀ cap ∈ imageCaptures content, ∀ b ∈ cap, b < 128 := by
    intro cap hc b hb
    obtain ⟨u, r, hu⟩ := mem_findAllWith imageM imageM_lt content cap hc
    exact isImgB_lt b (imageM_capture u cap r hu b hb)
  obtain ⟨ds, hds⟩ := mapM_decodeAscii_some (imageCaptures content) hascii
  exact ⟨ds.toFinset, by unfold imageTypesOf; rw [hds]; rfl⟩

theorem xfaHostFuncsOf_some (content : List Nat) : ∃ s, xfaHostFuncsOf content = some s := by
  have hascii : ∀ cap ∈ xfaHostCaptures content, ∀ b ∈ cap, b < 128 := by
    intro cap hc b hb
    obtain ⟨u, r, hu⟩ := mem_findAllWith xfaHostM xfaHostM_lt content cap hc
    exact isWordB_lt b (xfaHostM_capture u cap r hu b hb)
  obtain ⟨ds, hds⟩ := mapM_decodeAscii_some (xfaHostCaptures content) hascii
  exact ⟨ds.toFinset, by unfold xfaHostFuncsOf; rw [hds]; rfl⟩

theorem classify_total_of_ascii (content : List Nat)
    (hemb : ∀ cap ∈ embeddedFontCaptures content, ∀ b ∈ cap, b < 128)
    (hmi : ∀ cap ∈ execMenuCaptures content, ∀ b ∈ cap, b < 128) :
    ∃ rec, classify content = Except.ok rec := by
  obtain ⟨its, hits⟩ := imageTypesOf_some content
  obtain ⟨xhs, hxhs⟩ := xfaHostFuncsOf_some content
  obtain ⟨eds, heds⟩ := mapM_decodeAscii_some _ hemb
  obtain ⟨mds, hmds⟩ := mapM_decodeAscii_some _ hmi
  have he2 : embeddedFontsOf content = some eds.toFinset := by
    unfold embeddedFontsOf; rw [heds]; rfl
  have hm2 : execMenuArgsOf content = some mds.toFinset := by
    unfold execMenuArgsOf; rw [hmds]; rfl
  unfold classify
  rw [hits, he2, hxhs, hm2]
  exact ⟨_, rfl⟩

/-- The module-level aggregation state of run.py lines 91-101: seven
membership lists and four counters.  A counter is modelled as the multiset of
counted tokens (each increment adds one occurrence), which carries exactly the
token-to-count map of a Python Counter. -/
structure Agg where
  xfa : List String
  js : List String
  tosource : List String
  tagged : List String
  rectangles : List String
  encrypted : List String
  purexfa : List String
  image_types : Multiset (List Nat)
  fonts : Multiset (List Nat)
  xfa_host_funcs : Multiset (List Nat)
  exec_menu_item_items : Multiset (List Nat)
deriving DecidableEq

/-- The empty aggregation state at interpreter start. -/
def Agg.empty : Agg := ⟨[], [], [], [], [], [], [], 0, 0, 0, 0⟩

/-- run.py lines 197-222: route one document record into the aggregate.
The tosource append is nested under the js branch exactly as in the source. -/
def applyAgg (agg : Agg) (pdf_path : String) (types : Types) : Agg :=
  { xfa := if types.x then agg.xfa ++ [pdf_path] else agg.xfa
    js := if types.j then agg.js ++ [pdf_path] else agg.js
    tosource :=
      if types.j then
        (if types.s then agg.tosource ++ [pdf_path] else agg.tosource)
      else agg.tosource
    tagged := if types.t then agg.tagged ++ [pdf_path] else agg.tagged
    rectangles := if types.r then agg.rectangles ++ [pdf_path] else agg.rectangles
    encrypted := if types.e then agg.encrypted ++ [pdf_path] else agg.encrypted
    purexfa := if types.p then agg.purexfa ++ [pdf_path] else agg.purexfa
    image_types := agg.image_types + types.i.val
    fonts := agg.fonts + types.f.val
    xfa_host_funcs := agg.xfa_host_funcs + types.xh.val
    exec_menu_item_items := agg.exec_menu_item_items + types.mi.val }

/-- State of one sidecar cache file: absent, present but not decodable as
JSON, or present with a decoded record. -/
inductive CacheFile where
  | missing : CacheFile
  | corrupt : CacheFile
  | valid : Types → CacheFile

/-- The sidecar files on disk, keyed by sidecar path. -/
def CacheMap := String → CacheFile

/-- What the filesystem and the qpdf subprocess yield for one document:
the original file bytes, and either the uncompressed stdout bytes or the
stderr text of a non-zero exit. -/
structure DocFS where
  orig : List Nat
  decomp : Except (List Nat) (List Nat)

/-- The fixed corpus environment: per document path, its file content and
its (deterministic) decompression outcome. -/
def Corpus := String → DocFS

/-- run.py line 109: the sidecar path is the document path with its last four
characters removed, followed by the literal suffix. -/
def typesPath (pdf_path : String) : String :=
  String.mk (pdf_path.data.take (pdf_path.data.length - 4)) ++ "___TYPES___.json"

/-- Overwrite one sidecar file (run.py lines 194-195). -/
def cacheSet (c : CacheMap) (sidecar : String) (types : Types) : CacheMap :=
  fun q => if q = sidecar then CacheFile.valid types else c q

/-- The analyze coroutine of run.py lines 108-222 for one document, with its
observable effects: the new aggregate, the new cache, whether the qpdf
subprocess was launched, and whether a sidecar was written.

The try/except at lines 111-127 catches only FileNotFoundError, so a sidecar
that exists but fails JSON decoding raises out of analyze; on a cache hit the
decoded record is aggregated directly; on a miss the encryption flag is read
from the original bytes, qpdf is run, a non-zero exit skips the document
(lines 147-153), and otherwise the classified record is written back and
aggregated. -/
def analyzeEff (corpus : Corpus) (pdf_path : String) (st : Agg × CacheMap) :
    Except PyErr (Agg × CacheMap × Bool × Bool) :=
  match st.2 (typesPath pdf_path) with
  | CacheFile.valid types => Except.ok (applyAgg st.1 pdf_path types, st.2, false, false)
  | CacheFile.corrupt => Except.error PyErr.jsonDecodeError
  | CacheFile.missing =>
    match (corpus pdf_path).decomp with
    | Except.error _ => Except.ok (st.1, st.2, true, false)
    | Except.ok pdf_content =>
      match classify pdf_content with
      | Except.error u => Except.error u
      | Except.ok c0 =>
        let types := { c0 with e := is_encrypted (corpus pdf_path).orig }
        Except.ok (applyAgg st.1 pdf_path types,
                   cacheSet st.2 (typesPath pdf_path) types, true, true)

/-- analyze as a plain state transformer. -/
def analyzeStep (corpus : Corpus) (pdf_path : String) (st : Agg × CacheMap) :
    Except PyErr (Agg × CacheMap) :=
  (analyzeEff corpus pdf_path st).map fun res => (res.1, res.2.1)

/-- Sequential processing of a list of discovered paths (worker concurrency
one); an uncaught exception from analyze aborts the run. -/
def runDocs (corpus : Corpus) : List String → Agg × CacheMap → Except PyErr (Agg × CacheMap)
  | [], st => Except.ok st
  | p :: ps, st =>
    match analyzeStep corpus p st with
    | Except.error e => Except.error e
    | Except.ok st2 => runDocs corpus ps st2

/-- Python str.endswith. -/
def pyEndsWith (s pat : String) : Bool :=
  decide (pat.data.length ≤ s.data.length) &&
  decide (s.data.drop (s.data.length - pat.data.length) = pat.data)

/-- The discovery filter of run.py lines 236-241: keep every file name that
ends with the three characters pdf (no dot required). -/
def producerNames (files : List String) : List String :=
  files.filter fun name => pyEndsWith name "pdf"

/-- The record a cache hit would aggregate: some for a decoded sidecar. -/
def recordOf : CacheFile → Option Types
  | CacheFile.valid types => some types
  | CacheFile.missing => none
  | CacheFile.corrupt => none

/-- Aggregate an optional record (a skipped document contributes nothing). -/
def applyAggO (agg : Agg) (pdf_path : String) : Option Types → Agg
  | some types => applyAgg agg pdf_path types
  | none => agg

/-- A sidecar state that re-processing the document leaves unchanged: either
a decoded record, or the file is absent and decompression fails for this
document.  A corrupt sidecar is never stable (analyze raises on it). -/
def Resolved : CacheFile → DocFS → Prop
  | CacheFile.valid _, _ => True
  | CacheFile.missing, fs => ∃ err, fs.decomp = Except.error err
  | CacheFile.corrupt, _ => False

theorem analyzeStep_eq (corpus : Corpus) (p : String) (a : Agg) (c : CacheMap) :
    analyzeStep corpus p (a, c) =
      match c (typesPath p) with
      | CacheFile.valid types => Except.ok (applyAgg a p types, c)
      | CacheFile.corrupt => Except.error PyErr.jsonDecodeError
      | CacheFile.missing =>
        match (corpus p).decomp with
        | Except.error _ => Except.ok (a, c)
        | Except.ok pdf_content =>
          match classify pdf_content with
          | Except.error u => Except.error u
          | Except.ok c0 =>
            Except.ok (applyAgg a p { c0 with e := is_encrypted (corpus p).orig },
              cacheSet c (typesPath p) { c0 with e := is_encrypted (corpus p).orig }) := by
  unfold analyzeStep analyzeEff
  simp only []
  cases c (typesPath p) with
  | valid types => rfl
  | corrupt => rfl
  | missing =>
    cases (corpus p).decomp with
    | error err => rfl
    | ok pdf_content =>
      cases hcl : classify pdf_content with
      | error u => simp [hcl, Except.map]
      | ok c0 => simp [hcl, Except.map]

theorem analyzeStep_resolved (corpus : Corpus) (p : String) (a : Agg) (c : CacheMap)
    (h : Resolved (c (typesPath p)) (corpus p)) :
    analyzeStep corpus p (a, c) =
      Except.ok (applyAggO a p (recordOf (c (typesPath p))), c) := by
  rw [analyzeStep_eq]
  cases hc : c (typesPath p) with
  | valid types => rfl
  | corrupt => rw [hc] at h; exact absurd h id
  | missing =>
    rw [hc] at h
    have h2 : ∃ err, (corpus p).decomp = Except.error err := h
    obtain ⟨err, herr⟩ := h2
    rw [herr]
    rfl

theorem analyzeStep_ok_spec (corpus : Corpus) (p : String) (a : Agg) (c : CacheMap)
    (a2 : Agg) (c2 : CacheMap) (h : analyzeStep corpus p (a, c) = Except.ok (a2, c2)) :
    Resolved (c2 (typesPath p)) (corpus p) ∧
    a2 = applyAggO a p (recordOf (c2 (typesPath p))) ∧
    (∀ sp, sp ≠ typesPath p → c2 sp = c sp) := by
  rw [analyzeStep_eq] at h
  cases hc : c (typesPath p) with
  | valid types =>
    simp only [hc] at h
    cases h
    rw [hc]
    exact ⟨trivial, rfl, fun sp _ => rfl⟩
  | corrupt => simp only [hc] at h; cases h
  | missing =>
    simp only [hc] at h
    cases hd : (corpus p).decomp with
    | error err =>
      simp only [hd] at h
      cases h
      rw [hc]
      exact ⟨⟨err, hd⟩, rfl, fun sp _ => rfl⟩
    | ok pdf_content =>
      simp only [hd] at h
      cases hcl : classify pdf_content with
      | error u => simp only [hcl] at h; cases h
      | ok c0 =>
        simp only [hcl] at h
        cases h
        refine ⟨?_, ?_, ?_⟩
        · simp [cacheSet, Resolved]
        · simp [cacheSet, recordOf, applyAggO]
        · intro sp hs; simp [cacheSet, hs]

theorem runDocs_slot_stable (corpus : Corpus) :
    ∀ (qs : List String) (a : Agg) (c : CacheMap) (a2 : Agg) (c2 : CacheMap) (p : String),
    runDocs corpus qs (a, c) = Except.ok (a2, c2) →
    (∀ q ∈ qs, typesPath q = typesPath p → q = p) →
    Resolved (c (typesPath p)) (corpus p) →
    c2 (typesPath p) = c (typesPath p) := by
  intro qs
  induction qs with
  | nil =>
    intro a c a2 c2 p h _ _
    cases h
    rfl
  | cons q qs ih =>
    intro a c a2 c2 p h hq hres
    unfold runDocs at h
    cases hs : analyzeStep corpus q (a, c) with
    | error e => rw [hs] at h; cases h
    | ok st2 =>
      rw [hs] at h
      obtain ⟨am, cm⟩ := st2
      by_cases hqp : typesPath q = typesPath p
      · have hq2 : q = p := hq q (List.mem_cons_self _ _) hqp
        subst hq2
        rw [analyzeStep_resolved corpus q a c hres] at hs
        cases hs
        exact ih _ c a2 c2 q h (fun r hr => hq r (List.mem_cons_of_mem _ hr)) hres
      · have hfr := (analyzeStep_ok_spec corpus q a c am cm hs).2.2 (typesPath p)
          (fun he => hqp he.symm)
        have hres2 : Resolved (cm (typesPath p)) (corpus p) := by rw [hfr]; exact hres
        have := ih am cm a2 c2 p h (fun r hr => hq r (List.mem_cons_of_mem _ hr)) hres2
        rw [this, hfr]

theorem runDocs_idem (corpus : Corpus) :
    ∀ (paths : List String) (a : Agg) (c : CacheMap) (a1 : Agg) (c1 : CacheMap),
    (∀ p ∈ paths, ∀ q ∈ paths, typesPath p = typesPath q → p = q) →
    runDocs corpus paths (a, c) = Except.ok (a1, c1) →
    runDocs corpus paths (a, c1) = Except.ok (a1, c1) := by
  intro paths
  induction paths with
  | nil =>
    intro a c a1 c1 _ h
    cases h
    rfl
  | cons p ps ih =>
    intro a c a1 c1 hinj h
    unfold runDocs at h ⊢
    cases hs : analyzeStep corpus p (a, c) with
    | error e => rw [hs] at h; cases h
    | ok st2 =>
      rw [hs] at h
      obtain ⟨am, cm⟩ := st2
      obtain ⟨hres, ha2, _⟩ := analyzeStep_ok_spec corpus p a c am cm hs
      have hslot : c1 (typesPath p) = cm (typesPath p) :=
        runDocs_slot_stable corpus ps am cm a1 c1 p h
          (fun q hq hqp => hinj q (List.mem_cons_of_mem _ hq) p (List.mem_cons_self _ _) hqp)
          hres
      have hres1 : Resolved (c1 (typesPath p)) (corpus p) := by rw [hslot]; exact hres
      have hstep2 : analyzeStep corpus p (a, c1) = Except.ok (am, c1) := by
        rw [analyzeStep_resolved corpus p a c1 hres1, hslot, ← ha2]
      rw [hstep2]
      exact ih am cm a1 c1
        (fun x hx y hy => hinj x (List.mem_cons_of_mem _ hx) y (List.mem_cons_of_mem _ hy))
        h ▸ rfl

/-- Status of one worker coroutine (run.py lines 225-230). -/
inductive WStat where
  | running : WStat
  | finished : WStat
deriving DecidableEq

/-- One worker together with the full sequence of items it has dequeued
(none is the sentinel poison value of run.py line 248). -/
structure Wk where
  stat : WStat
  trace : List (Option String)
deriving DecidableEq

/-- State of the producer/queue/workers system of run.py lines 225-257:
paths not yet enqueued, sentinels not yet enqueued, the bounded queue
content, and the workers. -/
structure Sched where
  pending : List String
  sentinelsLeft : Nat
  queue : List (Option String)
  workers : List Wk
deriving DecidableEq

/-- Initial state of main (run.py lines 251-257): the producer holds all
discovered paths and will enqueue queue.maxsize sentinels afterwards; the
queue capacity and the number of sentinels both equal the worker count. -/
def initSched (paths : List String) (n : Nat) : Sched :=
  ⟨paths, n, [], List.replicate n ⟨WStat.running, []⟩⟩

/-- Interleaved small-step semantics: the producer enqueues a path when the
bounded queue has room (run.py lines 243-244), enqueues a sentinel only after
all paths are gone (lines 246-248), and a running worker dequeues the head
item, finishing when it is the sentinel (lines 226-229). -/
inductive SStep (n : Nat) : Sched → Sched → Prop where
  | enqPath : ∀ p ps k q ws, q.length < n →
      SStep n ⟨p :: ps, k, q, ws⟩ ⟨ps, k, q ++ [some p], ws⟩
  | enqSentinel : ∀ k q ws, q.length < n →
      SStep n ⟨[], k + 1, q, ws⟩ ⟨[], k, q ++ [none], ws⟩
  | deq : ∀ ps k v q ws i tr, ws[i]? = some ⟨WStat.running, tr⟩ →
      SStep n ⟨ps, k, v :: q, ws⟩
        ⟨ps, k, q, ws.set i ⟨if v.isSome then WStat.running else WStat.finished, tr ++ [v]⟩⟩

/-- Executions of the scheduler. -/
def Reaches (n : Nat) (s0 s : Sched) : Prop := Relation.ReflTransGen (SStep n) s0 s

/-- Number of sentinels a worker has dequeued. -/
def wkNones (w : Wk) : Nat := (w.trace.filter Option.isNone).length

/-- Number of sentinels sitting in the queue. -/
def queueNones (q : List (Option String)) : Nat := (q.filter Option.isNone).length

/-- Per-worker invariant: a running worker has dequeued only real paths; a
finished worker has dequeued real paths followed by exactly one sentinel. -/
def WkOk (w : Wk) : Prop :=
  match w.stat with
  | WStat.running => ∀ v ∈ w.trace, v.isSome = true
  | WStat.finished => ∃ rs : List String, w.trace = rs.map some ++ [none]

/-- Global invariant: the worker pool has size n, sentinels are conserved
(not yet issued + in queue + absorbed by workers = n), and every worker
satisfies its trace invariant. -/
def SchedInv (n : Nat) (s : Sched) : Prop :=
  s.workers.length = n ∧
  s.sentinelsLeft + queueNones s.queue + (s.workers.map wkNones).sum = n ∧
  ∀ w ∈ s.workers, WkOk w

/-- No step is enabled. -/
def SchedStuck (n : Nat) (s : Sched) : Prop := ∀ s2, ¬ SStep n s s2

/-- Strictly decreasing measure: every step consumes work. -/
def schedMeasure (s : Sched) : Nat :=
  2 * (s.pending.length + s.sentinelsLeft) + s.queue.length

theorem trace_filter_of_all_some (tr : List (Option String))
    (h : ∀ v ∈ tr, v.isSome = true) : tr.filter Option.isNone = [] := by
  apply List.filter_eq_nil_iff.mpr
  intro v hv
  cases v with
  | none => exact absurd (h none hv) (by simp)
  | some x => simp

theorem wkNones_running (w : Wk) (h : WkOk w) (hs : w.stat = WStat.running) :
    wkNones w = 0 := by
  have h2 : ∀ v ∈ w.trace, v.isSome = true := by
    unfold WkOk at h
    rw [hs] at h
    exact h
  simp [wkNones, trace_filter_of_all_some w.trace h2]

theorem wkNones_finished (w : Wk) (h : WkOk w) (hs : w.stat = WStat.finished) :
    wkNones w = 1 := by
  have h2 : ∃ rs : List String, w.trace = rs.map some ++ [none] := by
    unfold WkOk at h
    rw [hs] at h
    exact h
  obtain ⟨rs, hrs⟩ := h2
  have hmap : (rs.map some).filter Option.isNone = [] := by
    apply List.filter_eq_nil_iff.mpr
    intro v hv
    obtain ⟨x, _, hx⟩ := List.mem_map.mp hv
    simp [← hx]
  simp [wkNones, hrs, List.filter_append, hmap]

theorem wkNones_le_one (w : Wk) (h : WkOk w) : wkNones w ≤ 1 := by
  cases hs : w.stat with
  | running => rw [wkNones_running w h hs]; omega
  | finished => rw [wkNones_finished w h hs]

theorem schedMeasure_decreases (n : Nat) (s s2 : Sched) (h : SStep n s s2) :
    schedMeasure s2 < schedMeasure s := by
  cases h with
  | enqPath p ps k q ws hq => simp [schedMeasure]; omega
  | enqSentinel k q ws hq => simp [schedMeasure]; omega
  | deq ps k v q ws i tr hw => simp [schedMeasure]

theorem all_some_eq_map (tr : List (Option String)) (h : ∀ v ∈ tr, v.isSome = true) :
    ∃ rs : List String, tr = rs.map some := by
  induction tr with
  | nil => exact ⟨[], rfl⟩
  | cons v vs ih =>
    obtain ⟨rs, hrs⟩ := ih fun x hx => h x (List.mem_cons_of_mem _ hx)
    cases v with
    | none => exact absurd (h none (List.mem_cons_self _ _)) (by simp)
    | some x => exact ⟨x :: rs, by simp [hrs]⟩

theorem schedInv_init (paths : List String) (n : Nat) : SchedInv n (initSched paths n) := by
  refine ⟨by simp [initSched], ?_, ?_⟩
  · have : (List.replicate n (⟨WStat.running, []⟩ : Wk)).map wkNones =
        List.replicate n 0 := by
      simp [List.map_replicate, wkNones]
    simp [initSched, queueNones, this, List.sum_replicate]
  · intro w hw
    have := List.eq_of_mem_replicate hw
    subst this
    intro v hv
    simp at hv

theorem schedInv_step (n : Nat) (s s2 : Sched) (hinv : SchedInv n s) (hs : SStep n s s2) :
    SchedInv n s2 := by
  obtain ⟨hlen, hcons, hwk⟩ := hinv
  cases hs with
  | enqPath p ps k q ws hq =>
    refine ⟨hlen, ?_, hwk⟩
    simp only [queueNones, List.filter_append] at *
    simp at *
    omega
  | enqSentinel k q ws hq =>
    refine ⟨hlen, ?_, hwk⟩
    simp only [queueNones, List.filter_append] at *
    simp at *
    omega
  | deq ps k v q ws i tr hw =>
    have hi : i < ws.length := (List.getElem?_eq_some.mp hw).1
    have hgi : ws[i] = ⟨WStat.running, tr⟩ := by
      have h2 := List.getElem?_eq_getElem hi
      rw [h2] at hw
      exact Option.some.inj hw
    have hwi : WkOk ws[i] := hwk ws[i] (List.getElem_mem hi)
    have htr : ∀ x ∈ tr, x.isSome = true := by
      have := hwi
      rw [hgi] at this
      exact this
    refine ⟨by simpa using hlen, ?_, ?_⟩
    · -- sentinel conservation
      have hmapset : (ws.set i ⟨if v.isSome then WStat.running else WStat.finished,
          tr ++ [v]⟩).map wkNones = (ws.map wkNones).set i
            (wkNones ⟨if v.isSome then WStat.running else WStat.finished, tr ++ [v]⟩) := by
        simp [List.map_set]
      have hlen2 : i < (ws.map wkNones).length := by simpa using hi
      have hsum : ((ws.map wkNones).set i
          (wkNones ⟨if v.isSome then WStat.running else WStat.finished, tr ++ [v]⟩)).sum
            + (ws.map wkNones)[i]
          = (ws.map wkNones).sum
            + wkNones ⟨if v.isSome then WStat.running else WStat.finished, tr ++ [v]⟩ := by
        rw [List.set_eq_take_append_cons_drop, if_pos hlen2]
        conv_rhs => rw [← List.take_append_drop i (ws.map wkNones),
          List.drop_eq_getElem_cons hlen2]
        simp
        omega
      have hgim : (ws.map wkNones)[i] = wkNones ws[i] := by simp
      have hwn : wkNones (⟨if v.isSome then WStat.running else WStat.finished,
          tr ++ [v]⟩ : Wk) = wkNones ws[i] + (if v.isNone then 1 else 0) := by
        rw [hgi]
        simp only [wkNones, List.filter_append]
        cases v <;> simp
      have hq : queueNones (v :: q) = queueNones q + (if v.isNone then 1 else 0) := by
        simp only [queueNones, List.filter_cons]
        cases v <;> simp
      simp only [] at *
      rw [hmapset] at *
      omega
    · -- per-worker invariant
      intro w hw2
      rcases List.mem_or_eq_of_mem_set hw2 with hmem | heq
      · exact hwk w hmem
      · subst heq
        cases hv : v with
        | some x =>
          intro u hu
          rcases List.mem_append.mp hu with h1 | h1
          · exact htr u h1
          · simp at h1
            simp [h1]
        | none =>
          obtain ⟨rs, hrs⟩ := all_some_eq_map tr htr
          exact ⟨rs, by simp [hrs]⟩

theorem schedInv_reaches (n : Nat) (paths : List String) (s : Sched)
    (h : Reaches n (initSched paths n) s) : SchedInv n s := by
  unfold Reaches at h
  induction h with
  | refl => exact schedInv_init paths n
  | tail _ hstep ih => exact schedInv_step n _ _ ih hstep

theorem stuck_all_finished (n : Nat) (s : Sched) (hn : 1 ≤ n)
    (hinv : SchedInv n s) (hstuck : SchedStuck n s) :
    ∀ w ∈ s.workers, w.stat = WStat.finished := by
  obtain ⟨ps, k, qu, ws⟩ := s
  obtain ⟨hlen, hcons, hwk⟩ := hinv
  intro w hw
  by_contra hne
  obtain ⟨wst, wtr⟩ := w
  have hrun : wst = WStat.running := by
    cases hws : wst
    · rfl
    · exact absurd hws hne
  subst hrun
  obtain ⟨i, hi, hgi⟩ := List.mem_iff_getElem.mp hw
  have hwiq : ws[i]? = some ⟨WStat.running, wtr⟩ := by
    rw [List.getElem?_eq_getElem hi, hgi]
  cases hqu : qu with
  | cons v q =>
    subst hqu
    exact hstuck _ (SStep.deq ps k v q ws i wtr hwiq)
  | nil =>
    subst hqu
    cases hps : ps with
    | cons p ps2 =>
      subst hps
      exact hstuck _ (SStep.enqPath p ps2 k [] ws (by simpa using hn))
    | nil =>
      subst hps
      cases hk : k with
      | succ k2 =>
        subst hk
        exact hstuck _ (SStep.enqSentinel k2 [] ws (by simpa using hn))
      | zero =>
        subst hk
        simp only [queueNones, List.filter_nil, List.length_nil] at hcons
        have hsum : (ws.map wkNones).sum = n := by omega
        have hbound : ∀ x ∈ ws.map wkNones, x ≤ 1 := by
          intro x hx
          obtain ⟨w2, hw2, hxe⟩ := List.mem_map.mp hx
          exact hxe ▸ wkNones_le_one w2 (hwk w2 hw2)
        have hil : i < (ws.map wkNones).length := by simpa using hi
        have hzero : (ws.map wkNones)[i] = 0 := by
          have : (ws.map wkNones)[i] = wkNones ws[i] := by simp
          rw [this, hgi]
          exact wkNones_running _ (hgi ▸ hwk ws[i] (List.getElem_mem hi)) rfl
        have hdecomp : (ws.map wkNones).sum
            = ((ws.map wkNones).take i).sum + (ws.map wkNones)[i]
              + ((ws.map wkNones).drop (i + 1)).sum := by
          conv_lhs => rw [← List.take_append_drop i (ws.map wkNones),
            List.drop_eq_getElem_cons hil]
          simp
          omega
        have htk : ((ws.map wkNones).take i).sum ≤ i := by
          have h1 := List.sum_le_card_nsmul ((ws.map wkNones).take i) 1
            (fun x hx => hbound x (List.mem_of_mem_take hx))
          simp at h1
          have h2 : ((ws.map wkNones).take i).length ≤ i := by
            simp [List.length_take]
          omega
        have hdr : ((ws.map wkNones).drop (i + 1)).sum ≤ ws.length - (i + 1) := by
          have h1 := List.sum_le_card_nsmul ((ws.map wkNones).drop (i + 1)) 1
            (fun x hx => hbound x (List.mem_of_mem_drop hx))
          simpa using h1
        have hlen2 : ws.length = n := by simpa using hlen
        have hin : i < n := by rw [← hlen2]; simpa using hi
        omega

/-- The view the caller has of one task future after asyncio.wait returns
(run.py line 258): still pending, completed normally, or completed with an
exception (payload abstracted as a number). -/
inductive FutView where
  | pending : FutView
  | doneOk : FutView
  | doneErr : Nat → FutView
deriving DecidableEq

/-- run.py lines 259-261: iterate the futures in order; the first completed
future that raised re-raises when its result is taken; pending and normally
completed futures are passed over. -/
def firstDoneErr : List FutView → Option Nat
  | [] => none
  | FutView.doneErr err :: _ => some err
  | FutView.pending :: fs => firstDoneErr fs
  | FutView.doneOk :: fs => firstDoneErr fs

/-- The join logic of main, run.py lines 258-287: after asyncio.wait with
return_when FIRST_EXCEPTION, re-raise the first error found among completed
futures; only when none raised does main go on to print the report and write
the export archives from the aggregate state. -/
def mainJoin (futures : List FutView) (agg : Agg) : Except Nat Agg :=
  match firstDoneErr futures with
  | some err => Except.error err
  | none => Except.ok agg

theorem firstDoneErr_of_mem (futures : List FutView) (err : Nat)
    (h : FutView.doneErr err ∈ futures) : ∃ err2, firstDoneErr futures = some err2 := by
  induction futures with
  | nil => simp at h
  | cons f fs ih =>
    cases f with
    | pending =>
      rcases List.mem_cons.mp h with h1 | h1
      · cases h1
      · exact ih h1
    | doneOk =>
      rcases List.mem_cons.mp h with h1 | h1
      · cases h1
      · exact ih h1
    | doneErr e2 => exact ⟨e2, rfl⟩

deriving instance DecidableEq for Except

/-- Concrete corpus whose every document decompresses to empty content. -/
def corpusTrivial : Corpus := fun _ => ⟨[], Except.ok []⟩

/-- Concrete corpus whose every decompression fails with empty stderr. -/
def corpusFailing : Corpus := fun _ => ⟨[], Except.error []⟩

/-- Cache state in which every sidecar file exists but is not decodable. -/
def cacheAllCorrupt : CacheMap := fun _ => CacheFile.corrupt

/-- Cache state with no sidecar files at all. -/
def cacheAllMissing : CacheMap := fun _ => CacheFile.missing

/-- C1, claim as stated, refuted at a concrete input: for a document whose
sidecar exists but fails JSON decoding, analyze raises jsonDecodeError
instead of treating the situation as a Miss, because the try/except at
run.py lines 111-114 catches only FileNotFoundError. -/
theorem spec_c1_cex :
    analyzeEff corpusTrivial "a.pdf" (Agg.empty, cacheAllCorrupt)
      = Except.error PyErr.jsonDecodeError := rfl

/-- C1 (amended): a sidecar that exists but fails structured decoding is NOT
treated as a Miss; analyze raises the decode error, which aborts the whole
run (only a missing sidecar file is treated as a Miss and recomputed). -/
theorem spec_c1_corrupt_cache_fatal (corpus : Corpus) (p : String) (a : Agg)
    (c : CacheMap) (ps : List String) (hc : c (typesPath p) = CacheFile.corrupt) :
    analyzeEff corpus p (a, c) = Except.error PyErr.jsonDecodeError ∧
    runDocs corpus (p :: ps) (a, c) = Except.error PyErr.jsonDecodeError := by
  have h1 : analyzeEff corpus p (a, c) = Except.error PyErr.jsonDecodeError := by
    unfold analyzeEff
    simp only []
    rw [hc]
  refine ⟨h1, ?_⟩
  unfold runDocs analyzeStep
  rw [h1]
  rfl

/-- Witness for the amended C1 at a concrete state. -/
theorem spec_c1_corrupt_cache_fatal_witness :
    analyzeEff corpusTrivial "b.pdf" (Agg.empty, cacheAllCorrupt)
      = Except.error PyErr.jsonDecodeError ∧
    runDocs corpusTrivial ["b.pdf"] (Agg.empty, cacheAllCorrupt)
      = Except.error PyErr.jsonDecodeError :=
  spec_c1_corrupt_cache_fatal corpusTrivial "b.pdf" Agg.empty cacheAllCorrupt [] rfl

/-- C2: when the decompression subprocess exits non-zero for a document with
no cache entry, analyze returns with the aggregate lists and counters
untouched and the cache unchanged (no sidecar written, write flag false, the
subprocess flag true because qpdf was launched), and the run simply continues
with the remaining documents. -/
theorem spec_c2_decomp_failure_skipped (corpus : Corpus) (p : String) (a : Agg)
    (c : CacheMap) (ps : List String) (stderrB : List Nat)
    (hc : c (typesPath p) = CacheFile.missing)
    (hd : (corpus p).decomp = Except.error stderrB) :
    analyzeEff corpus p (a, c) = Except.ok (a, c, true, false) ∧
    runDocs corpus (p :: ps) (a, c) = runDocs corpus ps (a, c) := by
  have h1 : analyzeEff corpus p (a, c) = Except.ok (a, c, true, false) := by
    unfold analyzeEff
    simp only []
    rw [hc, hd]
  refine ⟨h1, ?_⟩
  conv_lhs => rw [runDocs]
  unfold analyzeStep
  rw [h1]
  rfl

/-- Witness for C2 at a concrete state. -/
theorem spec_c2_decomp_failure_skipped_witness :
    analyzeEff corpusFailing "a.pdf" (Agg.empty, cacheAllMissing)
      = Except.ok (Agg.empty, cacheAllMissing, true, false) ∧
    runDocs corpusFailing ["a.pdf"] (Agg.empty, cacheAllMissing)
      = runDocs corpusFailing [] (Agg.empty, cacheAllMissing) :=
  spec_c2_decomp_failure_skipped corpusFailing "a.pdf" Agg.empty cacheAllMissing [] [] rfl rfl

/-- The byte content /FontFamily ( then the non-ascii byte 255 then ) :
embedded_font_regex matches it and the capture fails the strict ascii
decode. -/
def c3badInput : List Nat := strToB "/FontFamily (" ++ [255, 41]

/-- C3, claim as stated, refuted at a concrete input: classification is not
total, because run.py line 165 decodes each embedded-font capture strictly;
a capture holding the byte 255 raises UnicodeDecodeError. -/
theorem spec_c3_cex : classify c3badInput = Except.error PyErr.unicodeDecodeError := by
  decide

/-- C3 (amended): classification is a pure deterministic function of the
byte content, and it is total on every input whose embedded-font and
exec-menu-item captures hold only ascii bytes (the image-type and xfa-host
captures are ascii by their character classes); outside that set the strict
ascii decode of a capture raises UnicodeDecodeError. -/
theorem spec_c3_classify_total_on_ascii (content : List Nat)
    (hemb : ∀ cap ∈ embeddedFontCaptures content, ∀ b ∈ cap, b < 128)
    (hmi : ∀ cap ∈ execMenuCaptures content, ∀ b ∈ cap, b < 128) :
    ∃ rec, classify content = Except.ok rec :=
  classify_total_of_ascii content hemb hmi

/-- Witness for the amended C3 on the empty content. -/
theorem spec_c3_classify_total_on_ascii_witness : ∃ rec, classify [] = Except.ok rec :=
  spec_c3_classify_total_on_ascii [] (by decide) (by decide)

/-- C4: in every record produced by classification the toSource flag implies
the JavaScript flag, because run.py line 185 sets it only inside the is_JS
branch. -/
theorem spec_c4_tosource_implies_js (content : List Nat) (rec : Types)
    (h : classify content = Except.ok rec) (hs : rec.s = true) : rec.j = true := by
  obtain ⟨-, hj, hsrc, -⟩ := classify_ok_fields content rec h
  rw [hsrc] at hs
  rw [hj]
  exact (Bool.and_eq_true_iff.mp hs).1

/-- Witness for C4: content holding /JavaScript and toSource. -/
theorem spec_c4_tosource_implies_js_witness :
    (⟨false, true, true, false, false, ∅, ∅, false, false, ∅, ∅⟩ : Types).j = true :=
  spec_c4_tosource_implies_js (strToB "/JavaScript toSource")
    ⟨false, true, true, false, false, ∅, ∅, false, false, ∅, ∅⟩ (by decide) (by decide)

/-- C5: in every record produced by classification the nonEmbeddedFonts
field equals the case-sensitive set difference of the extracted used-font
set and the extracted embedded-font set, hence is a subset of the former and
disjoint from the latter (run.py line 168). -/
theorem spec_c5_nonembedded_diff (content : List Nat) (rec : Types)
    (h : classify content = Except.ok rec) :
    ∃ efs, embeddedFontsOf content = some efs ∧
      rec.f = usedFontsOf content \ efs ∧
      rec.f ⊆ usedFontsOf content ∧ Disjoint rec.f efs := by
  obtain ⟨-, -, -, -, -, -, -, -, ⟨efs, hefs, hf⟩, -, -⟩ := classify_ok_fields content rec h
  refine ⟨efs, hefs, hf, ?_, ?_⟩
  · rw [hf]; exact Finset.sdiff_subset
  · rw [hf]; exact Finset.sdiff_disjoint

/-- Witness for C5: content with one used font and no embedded fonts. -/
theorem spec_c5_nonembedded_diff_witness :
    ∃ efs, embeddedFontsOf (strToB "typeface=\"A\"") = some efs ∧
      (⟨false, false, false, false, false, ∅, {[65]}, false, false, ∅, ∅⟩ : Types).f
        = usedFontsOf (strToB "typeface=\"A\"") \ efs ∧
      (⟨false, false, false, false, false, ∅, {[65]}, false, false, ∅, ∅⟩ : Types).f
        ⊆ usedFontsOf (strToB "typeface=\"A\"") ∧
      Disjoint (⟨false, false, false, false, false, ∅, {[65]}, false, false, ∅, ∅⟩ : Types).f
        efs :=
  spec_c5_nonembedded_diff (strToB "typeface=\"A\"")
    ⟨false, false, false, false, false, ∅, {[65]}, false, false, ∅, ∅⟩ (by decide)

/-- The record analyze stores and aggregates on a cache miss: the classified
fields with the e flag taken from the original file bytes (run.py lines
129-133). -/
def storedRec (rec : Types) (origB : List Nat) : Types :=
  { rec with e := is_encrypted origB }

/-- C6: on a cache miss with successful decompression, the record that
analyze aggregates and writes back has its encryption flag computed from the
original (possibly still compressed) file bytes, while every other flag and
extracted set is computed from the decompressed byte stream. -/
theorem spec_c6_encryption_from_orig (corpus : Corpus) (p : String) (a : Agg)
    (c : CacheMap) (content : List Nat) (rec : Types)
    (hc : c (typesPath p) = CacheFile.missing)
    (hd : (corpus p).decomp = Except.ok content)
    (hcl : classify content = Except.ok rec) :
    analyzeEff corpus p (a, c) =
      Except.ok (applyAgg a p (storedRec rec (corpus p).orig),
        cacheSet c (typesPath p) (storedRec rec (corpus p).orig), true, true) ∧
    (storedRec rec (corpus p).orig).e = is_encrypted (corpus p).orig ∧
    (storedRec rec (corpus p).orig).x = is_XFA content ∧
    (storedRec rec (corpus p).orig).j = is_JS content ∧
    (storedRec rec (corpus p).orig).s
      = (is_JS content && bytesContains (strToB "toSource") content) ∧
    (storedRec rec (corpus p).orig).t = is_tagged content ∧
    (storedRec rec (corpus p).orig).r = is_using_rectangles content ∧
    (storedRec rec (corpus p).orig).p = is_purexfa content ∧
    imageTypesOf content = some (storedRec rec (corpus p).orig).i ∧
    (∃ efs, embeddedFontsOf content = some efs ∧
      (storedRec rec (corpus p).orig).f = usedFontsOf content \ efs) ∧
    xfaHostFuncsOf content = some (storedRec rec (corpus p).orig).xh ∧
    execMenuArgsOf content = some (storedRec rec (corpus p).orig).mi := by
  obtain ⟨hx, hj, hsrc, ht, hr, he0, hp0, hi, ⟨efs, hefs, hf⟩, hxh, hmi⟩ :=
    classify_ok_fields content rec hcl
  refine ⟨?_, rfl, hx, hj, hsrc, ht, hr, hp0, hi, ⟨efs, hefs, hf⟩, hxh, hmi⟩
  unfold analyzeEff
  simp only []
  simp only [hc, hd, hcl]
  rfl

/-- The all-false all-empty record that classification yields on empty
content. -/
def recEmptyW : Types := ⟨false, false, false, false, false, ∅, ∅, false, false, ∅, ∅⟩

/-- Concrete corpus whose documents carry the encryption marker in the
original bytes and decompress to empty content. -/
def corpusEnc : Corpus := fun _ => ⟨strToB "/Encrypt ", Except.ok []⟩

/-- Witness for C6 at a concrete state (original bytes hold the encryption
marker, decompressed content is empty). -/
theorem spec_c6_encryption_from_orig_witness :
    analyzeEff corpusEnc "a.pdf" (Agg.empty, cacheAllMissing) =
      Except.ok (applyAgg Agg.empty "a.pdf" (storedRec recEmptyW (corpusEnc "a.pdf").orig),
        cacheSet cacheAllMissing (typesPath "a.pdf")
          (storedRec recEmptyW (corpusEnc "a.pdf").orig), true, true) ∧
    (storedRec recEmptyW (corpusEnc "a.pdf").orig).e
      = is_encrypted (corpusEnc "a.pdf").orig ∧
    (storedRec recEmptyW (corpusEnc "a.pdf").orig).x = is_XFA [] ∧
    (storedRec recEmptyW (corpusEnc "a.pdf").orig).j = is_JS [] ∧
    (storedRec recEmptyW (corpusEnc "a.pdf").orig).s
      = (is_JS [] && bytesContains (strToB "toSource") []) ∧
    (storedRec recEmptyW (corpusEnc "a.pdf").orig).t = is_tagged [] ∧
    (storedRec recEmptyW (corpusEnc "a.pdf").orig).r = is_using_rectangles [] ∧
    (storedRec recEmptyW (corpusEnc "a.pdf").orig).p = is_purexfa [] ∧
    imageTypesOf [] = some (storedRec recEmptyW (corpusEnc "a.pdf").orig).i ∧
    (∃ efs, embeddedFontsOf [] = some efs ∧
      (storedRec recEmptyW (corpusEnc "a.pdf").orig).f = usedFontsOf [] \ efs) ∧
    xfaHostFuncsOf [] = some (storedRec recEmptyW (corpusEnc "a.pdf").orig).xh ∧
    execMenuArgsOf [] = some (storedRec recEmptyW (corpusEnc "a.pdf").orig).mi :=
  spec_c6_encryption_from_orig corpusEnc "a.pdf" Agg.empty cacheAllMissing [] recEmptyW
    rfl rfl (by decide)

/-- C7: for every worker count n of at least 1 and every path list, in every
reachable state of the producer/queue/worker system: the pool has n workers
and sentinels are conserved (exactly n are issued in total, and only after
all paths are enqueued, by construction of the step relation); a running
worker has dequeued only real paths and a finished worker has dequeued real
paths followed by exactly one sentinel (so no sentinel is ever passed to the
per-document pipeline and each worker absorbs exactly one); every stuck
reachable state has all workers finished, and every step strictly decreases
a natural measure, so no execution runs forever and no worker blocks
forever. -/
theorem spec_c7_sentinel_protocol (n : Nat) (paths : List String) (s : Sched)
    (hn : 1 ≤ n) (hr : Reaches n (initSched paths n) s) :
    (s.workers.length = n ∧
     s.sentinelsLeft + queueNones s.queue + (s.workers.map wkNones).sum = n) ∧
    (∀ w ∈ s.workers,
      (w.stat = WStat.running → ∀ v ∈ w.trace, v.isSome = true) ∧
      (w.stat = WStat.finished → ∃ rs : List String, w.trace = rs.map some ++ [none])) ∧
    (SchedStuck n s → ∀ w ∈ s.workers, w.stat = WStat.finished) ∧
    (∀ s2, SStep n s s2 → schedMeasure s2 < schedMeasure s) := by
  obtain ⟨h1, h2, h3⟩ := schedInv_reaches n paths s hr
  refine ⟨⟨h1, h2⟩, ?_, ?_, ?_⟩
  · intro w hw
    constructor
    · intro hst
      have hok := h3 w hw
      unfold WkOk at hok
      rw [hst] at hok
      exact hok
    · intro hst
      have hok := h3 w hw
      unfold WkOk at hok
      rw [hst] at hok
      exact hok
  · intro hstuck
    exact stuck_all_finished n s hn ⟨h1, h2, h3⟩ hstuck
  · intro s2 hs2
    exact schedMeasure_decreases n s s2 hs2

/-- Witness for C7 at the initial state with one worker and one path. -/
theorem spec_c7_sentinel_protocol_witness :
    ((initSched ["a.pdf"] 1).workers.length = 1 ∧
     (initSched ["a.pdf"] 1).sentinelsLeft + queueNones (initSched ["a.pdf"] 1).queue
       + ((initSched ["a.pdf"] 1).workers.map wkNones).sum = 1) ∧
    (∀ w ∈ (initSched ["a.pdf"] 1).workers,
      (w.stat = WStat.running → ∀ v ∈ w.trace, v.isSome = true) ∧
      (w.stat = WStat.finished → ∃ rs : List String, w.trace = rs.map some ++ [none])) ∧
    (SchedStuck 1 (initSched ["a.pdf"] 1) →
      ∀ w ∈ (initSched ["a.pdf"] 1).workers, w.stat = WStat.finished) ∧
    (∀ s2, SStep 1 (initSched ["a.pdf"] 1) s2 →
      schedMeasure s2 < schedMeasure (initSched ["a.pdf"] 1)) :=
  spec_c7_sentinel_protocol 1 ["a.pdf"] (initSched ["a.pdf"] 1) (Nat.le_refl 1)
    Relation.ReflTransGen.refl

/-- C8: if any task future completed with an exception, main re-raises it
after asyncio.wait (run.py lines 258-261): the join yields an error, never
the aggregate from which the report and export archives would be produced. -/
theorem spec_c8_failfast (futures : List FutView) (agg agg2 : Agg) (err : Nat)
    (h : FutView.doneErr err ∈ futures) :
    (∃ err2, mainJoin futures agg = Except.error err2) ∧
    mainJoin futures agg ≠ Except.ok agg2 := by
  obtain ⟨err2, he⟩ := firstDoneErr_of_mem futures err h
  unfold mainJoin
  rw [he]
  exact ⟨⟨err2, rfl⟩, fun hok => by cases hok⟩

/-- Witness for C8: one worker future failed, one completed. -/
theorem spec_c8_failfast_witness :
    (∃ err2, mainJoin [FutView.doneOk, FutView.doneErr 7] Agg.empty = Except.error err2) ∧
    mainJoin [FutView.doneOk, FutView.doneErr 7] Agg.empty ≠ Except.ok Agg.empty :=
  spec_c8_failfast [FutView.doneOk, FutView.doneErr 7] Agg.empty Agg.empty 7 (by decide)

/-- C9 (amended): a document whose sidecar decodes successfully is
aggregated straight from the cached record with no subprocess launch and no
classification and no cache write; and, provided no two distinct processed
paths map to the same sidecar path, re-running the whole pipeline over the
unchanged corpus starting from the cache the first run produced yields
exactly the aggregate and cache of the first run. -/
theorem spec_c9_cache_hit_idempotent (corpus : Corpus) (p : String) (a : Agg)
    (c : CacheMap) (types : Types) (paths : List String) (a1 : Agg) (c1 : CacheMap)
    (hc : c (typesPath p) = CacheFile.valid types)
    (hinj : ∀ x ∈ paths, ∀ y ∈ paths, typesPath x = typesPath y → x = y)
    (hrun : runDocs corpus paths (a, c) = Except.ok (a1, c1)) :
    analyzeEff corpus p (a, c) = Except.ok (applyAgg a p types, c, false, false) ∧
    runDocs corpus paths (a, c1) = Except.ok (a1, c1) := by
  constructor
  · unfold analyzeEff
    simp only []
    rw [hc]
  · exact runDocs_idem corpus paths a c a1 c1 hinj hrun

/-- Cache state in which every sidecar decodes to the empty record. -/
def cacheHitW : CacheMap := fun _ => CacheFile.valid recEmptyW

/-- Witness for the amended C9 at a concrete state (hit on a valid sidecar,
idempotence over the empty path list). -/
theorem spec_c9_cache_hit_idempotent_witness :
    analyzeEff corpusTrivial "a.pdf" (Agg.empty, cacheHitW)
      = Except.ok (applyAgg Agg.empty "a.pdf" recEmptyW, cacheHitW, false, false) ∧
    runDocs corpusTrivial [] (Agg.empty, cacheHitW) = Except.ok (Agg.empty, cacheHitW) :=
  spec_c9_cache_hit_idempotent corpusTrivial "a.pdf" Agg.empty cacheHitW recEmptyW []
    Agg.empty cacheHitW rfl (by simp) rfl

/-- Corpus for the C9 counterexample: a.pdf fails decompression, while the
distinct path abpdf (which shares the sidecar a___TYPES___.json with a.pdf)
decompresses to content carrying the tagging markers. -/
def corpusC9 : Corpus := fun p =>
  if p = "abpdf" then ⟨[], Except.ok (strToB "/MarkInfo /Marked true")⟩
  else ⟨[], Except.error []⟩

/-- The two discovered paths of the C9 counterexample. -/
def pathsC9 : List String := ["a.pdf", "abpdf"]

/-- Aggregate of one sequential pass over pathsC9 from a given state. -/
def runAggC9 (st : Agg × CacheMap) : Option Agg :=
  match runDocs corpusC9 pathsC9 st with
  | Except.ok (a, _) => some a
  | Except.error _ => none

/-- Aggregate of a second pass, started from the cache the first pass
produced (the corpus is unchanged and nothing touched the cache between the
runs). -/
def secondAggC9 : Option Agg :=
  match runDocs corpusC9 pathsC9 (Agg.empty, cacheAllMissing) with
  | Except.ok (_, c1) => runAggC9 (Agg.empty, c1)
  | Except.error _ => none

/-- C9, claim as stated, refuted at a concrete input: both runs over the
unchanged corpus with the cache carried over succeed, yet their aggregates
differ, because the sidecar written for abpdf is read as a hit for the
distinct document a.pdf on the second run. -/
theorem spec_c9_cex :
    (runAggC9 (Agg.empty, cacheAllMissing)).isSome = true ∧
    secondAggC9.isSome = true ∧
    secondAggC9 ≠ runAggC9 (Agg.empty, cacheAllMissing) := by
  decide

/-- C10: discovery keeps exactly the file names ending in the three
characters pdf (run.py line 238, no dot required); the sidecar path drops
the last four characters of the document path and appends the fixed suffix
(run.py line 109); consequently the name abpdf is discovered although it
does not end in .pdf, its sidecar drops a character of the bare name, and
the two distinct paths a.pdf and abpdf share one sidecar path. -/
theorem spec_c10_discovery_sidecar :
    (∀ (files : List String) (name : String),
      name ∈ producerNames files ↔ name ∈ files ∧ pyEndsWith name "pdf" = true) ∧
    (∀ p : String, (typesPath p).data
      = p.data.take (p.data.length - 4) ++ ("___TYPES___.json" : String).data) ∧
    pyEndsWith "abpdf" "pdf" = true ∧
    pyEndsWith "abpdf" ".pdf" = false ∧
    typesPath "a.pdf" = "a___TYPES___.json" ∧
    typesPath "abpdf" = "a___TYPES___.json" ∧
    ("a.pdf" : String) ≠ "abpdf" := by
  refine ⟨?_, ?_, by decide, by decide, by decide, by decide, by decide⟩
  · intro files name
    simp [producerNames, List.mem_filter]
  · intro p
    rfl

/-- Witness for C10 on a concrete discovery list. -/
theorem spec_c10_discovery_sidecar_witness :
    ("abpdf" ∈ producerNames ["abpdf", "readme.txt"] ↔
      "abpdf" ∈ ["abpdf", "readme.txt"] ∧ pyEndsWith "abpdf" "pdf" = true) ∧
    (typesPath "x.pdf").data
      = ("x.pdf" : String).data.take (("x.pdf" : String).data.length - 4)
        ++ ("___TYPES___.json" : String).data :=
  ⟨(spec_c10_discovery_sidecar.1 ["abpdf", "readme.txt"] "abpdf"),
   (spec_c10_discovery_sidecar.2.1 "x.pdf")⟩
